import Mathlib

/-!
# Verification of the Peloton logical-tile layer

Shallow embedding of `src/executor/logical_tile.cpp`,
`src/executor/materialization_executor.h` and
`src/backend/planner/order_by_node.h`.

Modelling conventions:
* `id_t` and row/column ids are `Nat`; physical tiles are identified by a
  `Nat` tag (`storage::Tile *` pointer identity).
* A physical tile's read interface (`Tile::GetValue(row, col)`,
  `Tile::GetTuple(row)`) is an environment function supplied to the logical
  tile's accessors: `venv tileId row col` and `tenv tileId row`.
* C++ `assert` failures are modelled as `Option.none` results: an operation
  whose precondition fails returns `none` instead of a successor state.
* `std::set<storage::Tile *> owned_base_tiles_` is modelled as a duplicate-free
  `List Nat` with dedup-on-insert, matching `std::set::insert` semantics.
* The iterator's `INVALID_ID` sentinel for `pos_` is modelled as
  `Option.none`.
-/

/-- `nstore::Value`: either the invalid sentinel produced by
`ValueFactory::GetInvalidValue()`, or a genuine value. -/
inductive Value where
  | invalid : Value
  | intVal : Int → Value
deriving DecidableEq, Repr

/-- `LogicalTile::ColumnPointer`: schema entry mapping a logical column to a
base (physical) tile, an origin column inside it, and a position-list index. -/
structure ColumnPointer where
  base_tile : Nat
  origin_column_id : Nat
  position_list_idx : Nat
deriving DecidableEq, Repr, Inhabited

/-- State of an `executor::LogicalTile`. -/
structure LogicalTile where
  schema : List ColumnPointer
  position_lists : List (List Nat)
  valid_rows : List Bool
  num_tuples : Nat
  owned_base_tiles : List Nat
deriving DecidableEq, Repr

/-- The private do-nothing constructor `LogicalTile::LogicalTile()` (used by
the factory): everything empty. -/
def LogicalTile.empty : LogicalTile :=
  { schema := [], position_lists := [], valid_rows := [], num_tuples := 0,
    owned_base_tiles := [] }

/-- `std::set::insert`: add an element unless already present. -/
def insertOwned (s : List Nat) (b : Nat) : List Nat :=
  if b ∈ s then s else s ++ [b]

/-- `std::vector<bool>::resize(n, v)`: keep the first `n` entries, pad with
`v` up to length `n`. -/
def resizeBool (l : List Bool) (n : Nat) (v : Bool) : List Bool :=
  l.take n ++ List.replicate (n - l.length) v

/-- `LogicalTile::AddColumn`: appends a schema entry; `assert(position_list_idx
< position_lists_.size())` is modelled by returning `none` on violation.
Inserts the base tile into the owned set when `own_base_tile` is set. -/
def LogicalTile.AddColumn (t : LogicalTile) (base_tile : Nat)
    (own_base_tile : Bool) (origin_column_id : Nat)
    (position_list_idx : Nat) : Option LogicalTile :=
  if position_list_idx < t.position_lists.length then
    some { t with
      schema := t.schema ++
        [{ base_tile := base_tile, origin_column_id := origin_column_id,
           position_list_idx := position_list_idx }],
      owned_base_tiles :=
        if own_base_tile then insertOwned t.owned_base_tiles base_tile
        else t.owned_base_tiles }
  else none

/-- `LogicalTile::AddPositionList`: the first list fixes `num_tuples_` and
resizes `valid_rows_` to all-true; `assert(position_lists_.size() == 0 ||
position_lists_[0].size() == position_list.size())` is modelled by `none`.
Returns the updated tile together with the new list's index
(`position_lists_.size() - 1` after the push). -/
def LogicalTile.AddPositionList (t : LogicalTile) (position_list : List Nat) :
    Option (LogicalTile × Nat) :=
  if t.position_lists.length = 0 ∨
      (t.position_lists.getD 0 []).length = position_list.length then
    let t' :=
      if t.position_lists.length = 0 then
        { t with num_tuples := position_list.length,
                 valid_rows := resizeBool t.valid_rows position_list.length true,
                 position_lists := t.position_lists ++ [position_list] }
      else
        { t with position_lists := t.position_lists ++ [position_list] }
    some (t', t'.position_lists.length - 1)
  else none

/-- `LogicalTile::GetBaseTile`: unchecked schema lookup of the base tile. -/
def LogicalTile.GetBaseTile (t : LogicalTile) (column_id : Nat) : Nat :=
  (t.schema.getD column_id default).base_tile

/-- `LogicalTile::NumTuples`. -/
def LogicalTile.NumTuples (t : LogicalTile) : Nat := t.num_tuples

/-- `LogicalTile::NumCols`. -/
def LogicalTile.NumCols (t : LogicalTile) : Nat := t.schema.length

/-- `LogicalTile::GetValue(column_id, tuple_id)`: the two `assert`s are the
outer guard; an invalidated row short-circuits to the invalid-value sentinel;
otherwise the call resolves through the schema entry and its position list and
delegates to the base tile (`venv baseTileId row col`). -/
def LogicalTile.GetValue (venv : Nat → Nat → Nat → Value) (t : LogicalTile)
    (column_id tuple_id : Nat) : Option Value :=
  if column_id < t.schema.length ∧ tuple_id < t.valid_rows.length then
    if t.valid_rows.getD tuple_id false = false then
      some Value.invalid
    else
      let cp := t.schema.getD column_id default
      let base_tuple_id :=
        (t.position_lists.getD cp.position_list_idx []).getD tuple_id 0
      some (venv cp.base_tile base_tuple_id cp.origin_column_id)
  else none

/-- `LogicalTile::GetTuple(column_id, tuple_id)`: same guards; an invalidated
row returns the NULL tuple (inner `none`); otherwise delegates to the base
tile's `GetTuple(base_tuple_id)` (`tenv baseTileId row`). -/
def LogicalTile.GetTuple (tenv : Nat → Nat → Nat) (t : LogicalTile)
    (column_id tuple_id : Nat) : Option (Option Nat) :=
  if column_id < t.schema.length ∧ tuple_id < t.valid_rows.length then
    if t.valid_rows.getD tuple_id false = false then
      some none
    else
      let cp := t.schema.getD column_id default
      let base_tuple_id :=
        (t.position_lists.getD cp.position_list_idx []).getD tuple_id 0
      some (some (tenv cp.base_tile base_tuple_id))
  else none

/-- The destructor `LogicalTile::~LogicalTile` deletes every element of
`owned_base_tiles_` exactly once; this is the list of released tiles. -/
def LogicalTile.releasedTiles (t : LogicalTile) : List Nat :=
  t.owned_base_tiles

example :
    (LogicalTile.empty.AddPositionList [2, 0, 1]).map (fun p => p.2) =
      some 0 := by decide

example : LogicalTile.empty.AddColumn 7 true 1 0 = none := by decide

/-! ## Iterator (`LogicalTile::iterator`) -/

/-- The scan loop `while (pos < valid_rows_.size() && !valid_rows_[pos]) pos++`
followed by the `pos == size → INVALID_ID` normalization, run over the suffix
of `valid` starting at absolute index `i`: first absolute index `≥ i` whose
validity bit is set, `none` if there is none. -/
def scanValidAux : List Bool → Nat → Option Nat
  | [], _ => none
  | b :: bs, i => if b then some i else scanValidAux bs (i + 1)

/-- First valid absolute index `≥ i` in `valid` (`none` = `INVALID_ID`). -/
def scanValid (valid : List Bool) (i : Nat) : Option Nat :=
  scanValidAux (valid.drop i) i

/-- `LogicalTile::iterator` state: the owning tile's identity (`tile_`, a
pointer, modelled by a tag) and `pos_` with `none` for `INVALID_ID`. -/
structure TileIterator where
  tile_id : Nat
  pos : Option Nat
deriving DecidableEq, Repr

/-- `LogicalTile::begin()` / the iterator constructor with `begin = true`:
start at the first valid row, `INVALID_ID` when no row is valid. -/
def LogicalTile.iterBegin (t : LogicalTile) (tid : Nat) : TileIterator :=
  { tile_id := tid, pos := scanValid t.valid_rows 0 }

/-- `LogicalTile::end()` / the iterator constructor with `begin = false`:
`pos_ = INVALID_ID`. -/
def LogicalTile.iterEnd (_ : LogicalTile) (tid : Nat) : TileIterator :=
  { tile_id := tid, pos := none }

/-- `LogicalTile::iterator::operator++`: from a real position, advance to the
next valid row (strictly greater), `INVALID_ID` when none remains. -/
def LogicalTile.iterSucc (t : LogicalTile) (it : TileIterator) : TileIterator :=
  match it.pos with
  | some p => { it with pos := scanValid t.valid_rows (p + 1) }
  | none => it

/-- `LogicalTile::iterator::operator==`: compares `pos_` and the owning tile
identity. -/
def iterEq (a b : TileIterator) : Bool :=
  a.pos == b.pos && a.tile_id == b.tile_id

/-- The row indices produced by dereferencing the iterator as it is advanced
from a starting `pos_` until it reaches `INVALID_ID`; `fuel` bounds the number
of steps (the traversal visits at most `valid.length` rows). -/
def iterVisit (valid : List Bool) : Option Nat → Nat → List Nat
  | none, _ => []
  | some _, 0 => []
  | some p, fuel + 1 => p :: iterVisit valid (scanValid valid (p + 1)) fuel

/-- The full begin-to-end traversal of a tile's valid rows. -/
def LogicalTile.iterList (t : LogicalTile) : List Nat :=
  iterVisit t.valid_rows (scanValid t.valid_rows 0) t.valid_rows.length

example :
    ({ LogicalTile.empty with
        valid_rows := [false, true, true, false, true],
        num_tuples := 5 } : LogicalTile).iterList = [1, 2, 4] := by decide

/-! ## Build phase

`LogicalTileFactory` assembles a tile from the empty private-constructor state
by a sequence of `AddPositionList` and `AddColumn` calls. -/

/-- One build-phase call. -/
inductive BuildOp where
  | addCol (base_tile : Nat) (own : Bool) (origin_column_id : Nat)
      (position_list_idx : Nat)
  | addPL (l : List Nat)
deriving DecidableEq, Repr

/-- Apply one build call; `none` when its `assert` fires. -/
def applyOp (t : LogicalTile) : BuildOp → Option LogicalTile
  | .addCol b own oc p => t.AddColumn b own oc p
  | .addPL l => (t.AddPositionList l).map Prod.fst

/-- Run a sequence of build calls from a given state. -/
def buildFrom (t : LogicalTile) : List BuildOp → Option LogicalTile
  | [] => some t
  | op :: ops =>
    match applyOp t op with
    | none => none
    | some t' => buildFrom t' ops

/-- Run a sequence of build calls from the factory's fresh empty tile. -/
def build (ops : List BuildOp) : Option LogicalTile :=
  buildFrom LogicalTile.empty ops

/-- The first position list passed to `AddPositionList` in a build trace. -/
def firstPL : List BuildOp → Option (List Nat)
  | [] => none
  | .addPL l :: _ => some l
  | .addCol _ _ _ _ :: ops => firstPL ops

/-- State invariant maintained by the build phase (from the empty tile). -/
structure BuildInv (t : LogicalTile) : Prop where
  len_eq : t.valid_rows.length = t.num_tuples
  pl_len : ∀ l ∈ t.position_lists, l.length = t.num_tuples
  pl_empty : t.position_lists = [] → t.num_tuples = 0
  schema_ok : ∀ cp ∈ t.schema, cp.position_list_idx < t.position_lists.length
  owned_nodup : t.owned_base_tiles.Nodup
  fresh : ∀ b ∈ t.valid_rows, b = true

theorem mem_insertOwned {s : List Nat} {b x : Nat} :
    x ∈ insertOwned s b ↔ x ∈ s ∨ x = b := by
  unfold insertOwned
  split
  · constructor
    · exact fun h => Or.inl h
    · rintro (h | rfl) <;> assumption
  · simp

theorem nodup_insertOwned {s : List Nat} (h : s.Nodup) (b : Nat) :
    (insertOwned s b).Nodup := by
  unfold insertOwned
  split
  · exact h
  · simpa [List.nodup_append] using ⟨h, by assumption⟩

theorem buildInv_empty : BuildInv LogicalTile.empty := by
  constructor <;> simp [LogicalTile.empty]

theorem addColumn_eq_some {t : LogicalTile} {b oc p : Nat} {own : Bool}
    {t' : LogicalTile} (h : t.AddColumn b own oc p = some t') :
    p < t.position_lists.length ∧
    t' = { t with
      schema := t.schema ++
        [{ base_tile := b, origin_column_id := oc, position_list_idx := p }],
      owned_base_tiles :=
        if own then insertOwned t.owned_base_tiles b
        else t.owned_base_tiles } := by
  unfold LogicalTile.AddColumn at h
  split at h
  · exact ⟨by assumption, by injection h with h; exact h.symm⟩
  · exact absurd h (by simp)

theorem buildInv_addColumn {t t' : LogicalTile} {b oc p : Nat} {own : Bool}
    (h : t.AddColumn b own oc p = some t') (hi : BuildInv t) : BuildInv t' := by
  obtain ⟨hp, rfl⟩ := addColumn_eq_some h
  refine ⟨hi.len_eq, hi.pl_len, hi.pl_empty, ?_, ?_, hi.fresh⟩
  · intro cp hcp
    rcases List.mem_append.mp hcp with hcp | hcp
    · exact hi.schema_ok cp hcp
    · simp only [List.mem_singleton] at hcp
      subst hcp
      exact hp
  · split
    · exact nodup_insertOwned hi.owned_nodup b
    · exact hi.owned_nodup

/-- Shape of a successful `AddPositionList` call. -/
theorem addPositionList_eq_some {t : LogicalTile} {l : List Nat}
    {t' : LogicalTile} {i : Nat} (hi : BuildInv t)
    (h : t.AddPositionList l = some (t', i)) :
    i = t.position_lists.length ∧
    t'.position_lists = t.position_lists ++ [l] ∧
    t'.schema = t.schema ∧
    t'.owned_base_tiles = t.owned_base_tiles ∧
    ((t.position_lists = [] ∧ t'.num_tuples = l.length ∧
        t'.valid_rows = List.replicate l.length true) ∨
      (t.position_lists ≠ [] ∧ l.length = t.num_tuples ∧
        t'.num_tuples = t.num_tuples ∧ t'.valid_rows = t.valid_rows)) := by
  unfold LogicalTile.AddPositionList at h
  split at h
  case isTrue hcond =>
    simp only [Option.some.injEq, Prod.mk.injEq] at h
    obtain ⟨ht', hidx⟩ := h
    by_cases hlen : t.position_lists.length = 0
    · have hnil : t.position_lists = [] := List.length_eq_zero.mp hlen
      have hvr : t.valid_rows = [] := by
        have h0 : t.num_tuples = 0 := hi.pl_empty hnil
        have := hi.len_eq
        rw [h0] at this
        exact List.length_eq_zero.mp this
      rw [if_pos hlen] at ht' hidx
      subst ht'
      refine ⟨?_, rfl, rfl, rfl, Or.inl ⟨hnil, rfl, ?_⟩⟩
      · simp only [List.length_append, List.length_singleton] at hidx
        omega
      · simp [resizeBool, hvr]
    · have hne : t.position_lists ≠ [] := fun hc => hlen (by simp [hc])
      have hfirst : (t.position_lists.getD 0 []).length = l.length := by
        rcases hcond with hc | hc
        · exact absurd hc hlen
        · exact hc
      have hhead : t.position_lists.getD 0 [] ∈ t.position_lists := by
        obtain ⟨a, as, hcons⟩ := List.exists_cons_of_ne_nil hne
        rw [hcons]
        simp
      have hlnum : l.length = t.num_tuples := by
        rw [← hfirst]
        exact hi.pl_len _ hhead
      rw [if_neg hlen] at ht' hidx
      subst ht'
      refine ⟨?_, rfl, rfl, rfl, Or.inr ⟨hne, hlnum, rfl, rfl⟩⟩
      simp only [List.length_append, List.length_singleton] at hidx
      omega
  case isFalse =>
    exact absurd h (by simp)

theorem buildInv_addPL {t t' : LogicalTile} {l : List Nat} {i : Nat}
    (h : t.AddPositionList l = some (t', i)) (hi : BuildInv t) : BuildInv t' := by
  obtain ⟨-, hpl, hsch, hown, hcase⟩ := addPositionList_eq_some hi h
  rcases hcase with ⟨hnil, hnum, hvr⟩ | ⟨hne, hlnum, hnum, hvr⟩
  · refine ⟨?_, ?_, ?_, ?_, ?_, ?_⟩
    · simp [hvr, hnum]
    · intro l' hl'
      rw [hpl, hnil] at hl'
      simp only [List.nil_append, List.mem_singleton] at hl'
      subst hl'
      rw [hnum]
    · intro hc
      rw [hpl] at hc
      exact absurd hc (by simp)
    · intro cp hcp
      rw [hsch] at hcp
      have := hi.schema_ok cp hcp
      rw [hpl]
      simp only [List.length_append, List.length_singleton]
      omega
    · rw [hown]; exact hi.owned_nodup
    · intro b hb
      rw [hvr] at hb
      exact List.eq_of_mem_replicate hb
  · refine ⟨?_, ?_, ?_, ?_, ?_, ?_⟩
    · rw [hvr, hnum]; exact hi.len_eq
    · intro l' hl'
      rw [hpl] at hl'
      rcases List.mem_append.mp hl' with hl' | hl'
      · rw [hnum]; exact hi.pl_len l' hl'
      · simp only [List.mem_singleton] at hl'
        subst hl'
        rw [hnum]; exact hlnum
    · intro hc
      rw [hpl] at hc
      exact absurd hc (by simp)
    · intro cp hcp
      rw [hsch] at hcp
      have := hi.schema_ok cp hcp
      rw [hpl]
      simp only [List.length_append, List.length_singleton]
      omega
    · rw [hown]; exact hi.owned_nodup
    · intro b hb
      rw [hvr] at hb
      exact hi.fresh b hb

theorem buildInv_applyOp {t t' : LogicalTile} {op : BuildOp}
    (h : applyOp t op = some t') (hi : BuildInv t) : BuildInv t' := by
  cases op with
  | addCol b own oc p => exact buildInv_addColumn h hi
  | addPL l =>
    simp only [applyOp, Option.map_eq_some'] at h
    obtain ⟨⟨t'', i⟩, hmk, h⟩ := h
    cases h
    exact buildInv_addPL hmk hi

theorem buildInv_buildFrom {ops : List BuildOp} :
    ∀ {t t' : LogicalTile}, buildFrom t ops = some t' → BuildInv t →
      BuildInv t' := by
  induction ops with
  | nil =>
    intro t t' h hi
    simp only [buildFrom, Option.some.injEq] at h
    subst h
    exact hi
  | cons op ops ih =>
    intro t t' h hi
    simp only [buildFrom] at h
    split at h
    · exact absurd h (by simp)
    · exact ih h (buildInv_applyOp (by assumption) hi)

theorem buildInv_build {ops : List BuildOp} {t : LogicalTile}
    (h : build ops = some t) : BuildInv t :=
  buildInv_buildFrom h buildInv_empty

/-! ## Characterizing the iterator's traversal -/

theorem scanValidAux_cons (b : Bool) (bs : List Bool) (i : Nat) :
    scanValidAux (b :: bs) i =
      if b then some i else scanValidAux bs (i + 1) := rfl

/-- Recursion equation for `scanValid` in terms of absolute indices. -/
theorem scanValid_unfold (valid : List Bool) (i : Nat) :
    scanValid valid i =
      if i < valid.length then
        (if valid.getD i false = true then some i else scanValid valid (i + 1))
      else none := by
  by_cases h : i < valid.length
  · rw [if_pos h]
    unfold scanValid
    rw [List.drop_eq_getElem_cons h, scanValidAux_cons,
      List.getD_eq_getElem valid false h]
  · rw [if_neg h]
    unfold scanValid
    rw [List.drop_eq_nil_of_le (Nat.le_of_not_lt h)]
    rfl

/-- Full specification of the scan loop: on success it returns the least valid
index `≥ i` (in bounds, valid, minimal); on failure no index `≥ i` is valid. -/
theorem scanValid_spec (valid : List Bool) (i : Nat) :
    (∀ j, scanValid valid i = some j →
        i ≤ j ∧ j < valid.length ∧ valid.getD j false = true ∧
          ∀ k, i ≤ k → k < j → valid.getD k false = false) ∧
      (scanValid valid i = none →
        ∀ j, i ≤ j → j < valid.length → valid.getD j false = false) := by
  rw [scanValid_unfold]
  by_cases hi : i < valid.length
  · rw [if_pos hi]
    by_cases hv : valid.getD i false = true
    · rw [if_pos hv]
      constructor
      · intro j hj
        injection hj with hj
        subst hj
        exact ⟨Nat.le_refl i, hi, hv, fun k hk1 hk2 => absurd hk1 (by omega)⟩
      · intro hj
        exact absurd hj (by simp)
    · rw [if_neg hv]
      have hvf : valid.getD i false = false := by
        cases hb : valid.getD i false
        · rfl
        · exact absurd hb hv
      have rec := scanValid_spec valid (i + 1)
      constructor
      · intro j hj
        obtain ⟨h1, h2, h3, h4⟩ := rec.1 j hj
        refine ⟨by omega, h2, h3, ?_⟩
        intro k hk1 hk2
        rcases Nat.eq_or_lt_of_le hk1 with hk | hk
        · rw [← hk]; exact hvf
        · exact h4 k hk hk2
      · intro hj j hij hjlen
        rcases Nat.eq_or_lt_of_le hij with hk | hk
        · rw [← hk]; exact hvf
        · exact rec.2 hj j hk hjlen
  · rw [if_neg hi]
    constructor
    · intro j hj
      exact absurd hj (by simp)
    · intro _ j hij hjlen
      exact absurd (Nat.lt_of_le_of_lt hij hjlen) hi
termination_by valid.length - i
decreasing_by
  simp only [not_lt] at *
  omega

/-- The set of valid (visible) row indices of a validity bitmap, ascending. -/
def validIndices (valid : List Bool) : List Nat :=
  (List.range valid.length).filter (fun j => valid.getD j false)

theorem mem_validIndices {valid : List Bool} {j : Nat} :
    j ∈ validIndices valid ↔ j < valid.length ∧ valid.getD j false = true := by
  simp [validIndices, List.mem_filter, List.mem_range]

theorem pairwise_validIndices (valid : List Bool) :
    (validIndices valid).Pairwise (· < ·) :=
  (List.pairwise_lt_range valid.length).filter _

/-- Pull the minimal element of a strictly ascending list out of a
lower-bound filter. -/
theorem filter_ge_eq_cons : ∀ {V : List Nat} {j : Nat},
    V.Pairwise (· < ·) → j ∈ V →
    V.filter (fun k => decide (j ≤ k)) =
      j :: V.filter (fun k => decide (j + 1 ≤ k)) := by
  intro V
  induction V with
  | nil =>
    intro j _ hj
    exact absurd hj (by simp)
  | cons a tl ih =>
    intro j hp hj
    have hpa := (List.pairwise_cons.mp hp).1
    have hptl := (List.pairwise_cons.mp hp).2
    rcases List.mem_cons.mp hj with rfl | hj
    · rw [List.filter_cons, List.filter_cons]
      rw [if_pos (by simp), if_neg (by simp only [decide_eq_true_eq]; omega)]
      congr 1
      apply List.filter_congr
      intro k hk
      have := hpa k hk
      simp only [decide_eq_decide]
      omega
    · have ha : a < j := hpa j hj
      rw [List.filter_cons, List.filter_cons]
      rw [if_neg (by simp only [decide_eq_true_eq]; omega),
        if_neg (by simp only [decide_eq_true_eq]; omega)]
      exact ih hptl hj

/-- The iterator's traversal starting at the first valid index `≥ i` visits
exactly the valid indices `≥ i`, provided enough fuel. -/
theorem iterVisit_eq (valid : List Bool) (i fuel : Nat)
    (hf : valid.length - i ≤ fuel) :
    iterVisit valid (scanValid valid i) fuel =
      (validIndices valid).filter (fun k => decide (i ≤ k)) := by
  cases hscan : scanValid valid i with
  | none =>
    have hnone := (scanValid_spec valid i).2 hscan
    cases fuel <;>
      · simp only [iterVisit]
        symm
        rw [List.filter_eq_nil_iff]
        intro j hj hdec
        simp only [decide_eq_true_eq] at hdec
        obtain ⟨hjlen, hjval⟩ := mem_validIndices.mp hj
        rw [hnone j hdec hjlen] at hjval
        exact absurd hjval (by simp)
  | some j =>
    obtain ⟨hij, hjlen, hjval, hmin⟩ := (scanValid_spec valid i).1 j hscan
    cases fuel with
    | zero => omega
    | succ f =>
      simp only [iterVisit]
      have hrec := iterVisit_eq valid (j + 1) f (by omega)
      rw [hrec]
      have hcongr :
          (validIndices valid).filter (fun k => decide (i ≤ k)) =
            (validIndices valid).filter (fun k => decide (j ≤ k)) := by
        apply List.filter_congr
        intro k hk
        obtain ⟨hklen, hkval⟩ := mem_validIndices.mp hk
        simp only [decide_eq_decide]
        constructor
        · intro hik
          by_contra hjk
          have : k < j := by omega
          rw [hmin k hik this] at hkval
          exact absurd hkval (by simp)
        · intro hjk
          omega
      rw [hcongr]
      exact (filter_ge_eq_cons (pairwise_validIndices valid)
        (mem_validIndices.mpr ⟨hjlen, hjval⟩)).symm
termination_by fuel

/-- The begin-to-end traversal of a logical tile visits exactly the valid row
indices, in ascending order. -/
theorem iterList_eq (t : LogicalTile) :
    t.iterList = validIndices t.valid_rows := by
  unfold LogicalTile.iterList
  rw [iterVisit_eq t.valid_rows 0 t.valid_rows.length (by omega)]
  rw [List.filter_eq_self.mpr]
  intro a _
  simp

/-! ## First-position-list and ownership bookkeeping across a build trace -/

theorem buildFrom_pl_head : ∀ {ops : List BuildOp} {t t' : LogicalTile},
    buildFrom t ops = some t' → BuildInv t → t.position_lists ≠ [] →
    t'.position_lists.head? = t.position_lists.head? := by
  intro ops
  induction ops with
  | nil =>
    intro t t' h _ _
    simp only [buildFrom, Option.some.injEq] at h
    subst h
    rfl
  | cons op ops ih =>
    intro t t' h hi hne
    simp only [buildFrom] at h
    split at h
    · exact absurd h (by simp)
    case h_2 t₁ heq =>
      have hi₁ : BuildInv t₁ := buildInv_applyOp heq hi
      cases op with
      | addCol b own oc p =>
        obtain ⟨-, ht₁⟩ := addColumn_eq_some heq
        have hpl₁ : t₁.position_lists = t.position_lists := by rw [ht₁]
        have hne₁ : t₁.position_lists ≠ [] := by rw [hpl₁]; exact hne
        rw [ih h hi₁ hne₁, hpl₁]
      | addPL l =>
        simp only [applyOp, Option.map_eq_some'] at heq
        obtain ⟨⟨t₂, i⟩, hmk, heq2⟩ := heq
        have hpl₁ : t₁.position_lists = t.position_lists ++ [l] := by
          obtain ⟨-, hpl, -, -, -⟩ := addPositionList_eq_some hi hmk
          rw [← heq2]
          exact hpl
        obtain ⟨a, as, hcons⟩ := List.exists_cons_of_ne_nil hne
        have hne₁ : t₁.position_lists ≠ [] := by
          rw [hpl₁, hcons]
          simp
        rw [ih h hi₁ hne₁, hpl₁, hcons]
        simp

theorem buildFrom_firstPL : ∀ {ops : List BuildOp} {t t' : LogicalTile}
    {l : List Nat},
    buildFrom t ops = some t' → BuildInv t → t.position_lists = [] →
    firstPL ops = some l → t'.position_lists.head? = some l := by
  intro ops
  induction ops with
  | nil =>
    intro t t' l _ _ _ hfl
    exact absurd hfl (by simp [firstPL])
  | cons op ops ih =>
    intro t t' l h hi hnil hfl
    simp only [buildFrom] at h
    split at h
    · exact absurd h (by simp)
    case h_2 t₁ heq =>
      have hi₁ : BuildInv t₁ := buildInv_applyOp heq hi
      cases op with
      | addCol b own oc p =>
        obtain ⟨-, ht₁⟩ := addColumn_eq_some heq
        have hpl₁ : t₁.position_lists = t.position_lists := by rw [ht₁]
        exact ih h hi₁ (by rw [hpl₁]; exact hnil) hfl
      | addPL l' =>
        simp only [firstPL, Option.some.injEq] at hfl
        subst hfl
        simp only [applyOp, Option.map_eq_some'] at heq
        obtain ⟨⟨t₂, i⟩, hmk, heq2⟩ := heq
        have hpl1 : t₁.position_lists = [l'] := by
          obtain ⟨-, hpl, -, -, -⟩ := addPositionList_eq_some hi hmk
          rw [← heq2]
          rw [hpl, hnil]
          rfl
        have hne₁ : t₁.position_lists ≠ [] := by
          rw [hpl1]
          simp
        rw [buildFrom_pl_head h hi₁ hne₁, hpl1]
        rfl

theorem buildFrom_owned : ∀ {ops : List BuildOp} {t t' : LogicalTile},
    buildFrom t ops = some t' → BuildInv t →
    ∀ b, b ∈ t'.owned_base_tiles ↔ b ∈ t.owned_base_tiles ∨
      ∃ oc p, BuildOp.addCol b true oc p ∈ ops := by
  intro ops
  induction ops with
  | nil =>
    intro t t' h _ b
    simp only [buildFrom, Option.some.injEq] at h
    subst h
    simp
  | cons op ops ih =>
    intro t t' h hi b
    simp only [buildFrom] at h
    split at h
    · exact absurd h (by simp)
    case h_2 t₁ heq =>
      have hi₁ : BuildInv t₁ := buildInv_applyOp heq hi
      have hih := ih h hi₁ b
      cases op with
      | addCol b' own oc p =>
        obtain ⟨-, ht₁⟩ := addColumn_eq_some heq
        subst ht₁
        simp only at hih
        rw [hih]
        constructor
        · intro hc
          rcases hc with hc | hc
          · split at hc
            case isTrue hown =>
              rcases mem_insertOwned.mp hc with hc | hc
              · exact Or.inl hc
              · subst hc
                subst hown
                exact Or.inr ⟨oc, p, List.mem_cons_self _ _⟩
            case isFalse => exact Or.inl hc
          · obtain ⟨oc', p', hmem⟩ := hc
            exact Or.inr ⟨oc', p', List.mem_cons_of_mem _ hmem⟩
        · intro hc
          rcases hc with hc | hc
          · refine Or.inl ?_
            split
            · exact mem_insertOwned.mpr (Or.inl hc)
            · exact hc
          · obtain ⟨oc', p', hmem⟩ := hc
            rcases List.mem_cons.mp hmem with hmem | hmem
            · injection hmem with hb hown hoc hp
              subst hb
              refine Or.inl ?_
              rw [← hown]
              simp only [if_true]
              exact mem_insertOwned.mpr (Or.inr rfl)
            · exact Or.inr ⟨oc', p', hmem⟩
      | addPL l =>
        simp only [applyOp, Option.map_eq_some'] at heq
        obtain ⟨⟨t₂, i⟩, hmk, heq⟩ := heq
        cases heq
        obtain ⟨-, -, -, hown, -⟩ := addPositionList_eq_some hi hmk
        rw [hih, hown]
        constructor
        · rintro (hc | ⟨oc', p', hmem⟩)
          · exact Or.inl hc
          · exact Or.inr ⟨oc', p', List.mem_cons_of_mem _ hmem⟩
        · rintro (hc | ⟨oc', p', hmem⟩)
          · exact Or.inl hc
          · rcases List.mem_cons.mp hmem with hmem | hmem
            · exact absurd hmem (by simp)
            · exact Or.inr ⟨oc', p', hmem⟩


/-! ## Order-by plan node (`src/backend/planner/order_by_node.h`) -/

/-- `planner::OrderByNode` configuration state: sort-key column ids,
per-key descending flags, projected output column ids, and the allocator
backend handle (modelled by a tag). -/
structure OrderByNode where
  sort_keys : List Nat
  descend_flags : List Bool
  output_column_ids : List Nat
  backend : Nat
deriving DecidableEq, Repr

/-- The `OrderByNode` constructor: member-initializes every field from its
arguments and does nothing else. -/
def OrderByNode.make (sort_keys : List Nat) (descend_flags : List Bool)
    (output_column_ids : List Nat) (backend : Nat) : OrderByNode :=
  { sort_keys := sort_keys, descend_flags := descend_flags,
    output_column_ids := output_column_ids, backend := backend }

def OrderByNode.GetSortKeys (n : OrderByNode) : List Nat := n.sort_keys

def OrderByNode.GetDescendFlags (n : OrderByNode) : List Bool :=
  n.descend_flags

def OrderByNode.GetOutputColumnIds (n : OrderByNode) : List Nat :=
  n.output_column_ids

/-- Typed configuration error of §7 of the design. -/
inductive ConfigError where
  | schemaMismatch
deriving DecidableEq, Repr

/-- Modelled from the spec: the order-by executor consuming an `OrderByNode`
is not among the source files (only the plan node `order_by_node.h` is).
§4.3 requires the descend-flag sequence to have the same length as the
sort-key sequence and mismatched lengths to be rejected before execution;
§7 classes the mismatch as a contract violation surfacing as a typed error.
This is the stage's configuration validation, run at initialization. -/
def sortStageInit (n : OrderByNode) : Except ConfigError Unit :=
  if n.GetSortKeys.length = n.GetDescendFlags.length then Except.ok ()
  else Except.error ConfigError.schemaMismatch

/-- Modelled from the spec: the pull-based stage protocol (§5, §6) — a stage
initializes first and touches input rows only after a successful
initialization; `process` stands for the out-of-scope sort algorithm. -/
def sortStageRun (n : OrderByNode)
    (process : List (List Value) → List (List Value))
    (rows : List (List Value)) : Except ConfigError (List (List Value)) :=
  match sortStageInit n with
  | Except.error e => Except.error e
  | Except.ok _ => Except.ok (process rows)

/-! ## Materialization executor (`src/executor/materialization_executor.h`) -/

/-- The rows visited by iterating the source tile from begin to end: the
currently visible rows, in iteration order. -/
def visibleRows (t : LogicalTile) : List Nat := t.iterList

/-- Base tile backing a logical column (`schema_[c].base_tile`). -/
def baseOf (t : LogicalTile) (c : Nat) : Nat :=
  (t.schema.getD c default).base_tile

/-- New (physical) column id assigned to old (logical) column `oc` by the
old-to-new column mapping. -/
def newColOf (m : List (Nat × Nat)) (oc : Nat) : Nat :=
  (m.lookup oc).getD 0

/-- The value the copy loop reads for logical column `c` at logical row `r`. -/
def valAt (venv : Nat → Nat → Nat → Value) (t : LogicalTile) (c r : Nat) :
    Value :=
  (t.GetValue venv c r).getD Value.invalid

/-- Modelled from the spec: `MaterializationExecutor::GenerateTileToColMap`
(declared in `materialization_executor.h`, body not among the sources) —
partitions the requested old column ids by the base tile each column resolves
to, so per-source-tile work is batched. -/
def GenerateTileToColMap (t : LogicalTile) (olds : List Nat) :
    List (Nat × List Nat) :=
  ((olds.map (baseOf t)).dedup).map
    (fun bt => (bt, olds.filter (fun c => baseOf t c == bt)))

/-- Modelled from the spec: the cell writes performed by
`MaterializationExecutor::MaterializeByTiles` — for each partition, for every
visible row (in iteration order, `i` the running output row counter), for each
requested column of the partition, write the source value into the destination
cell `(new column id, i)`. -/
def materializeWrites (venv : Nat → Nat → Nat → Value) (t : LogicalTile)
    (m : List (Nat × Nat)) (groups : List (Nat × List Nat)) :
    List ((Nat × Nat) × Value) :=
  groups.flatMap (fun g =>
    (List.range (visibleRows t).length).flatMap (fun i =>
      g.2.map (fun oc =>
        ((newColOf m oc, i), valAt venv t oc ((visibleRows t).getD i 0)))))

/-- Modelled from the spec: contents of the destination physical tile after a
sequence of cell writes (`dest_tile` updates performed by the copy loop of the
missing executor body), addressed as `(new column, row)`. -/
def applyWrites (ws : List ((Nat × Nat) × Value)) : Nat → Nat → Value :=
  ws.foldl
    (fun D w => fun c i => if c = w.1.1 ∧ i = w.1.2 then w.2 else D c i)
    (fun _ _ => Value.invalid)

/-- Modelled from the spec: the execute phase of the Materialization Executor
on one input logical tile — partition the requested columns by base tile, copy
per partition, and emit the destination tile (its cell contents and its row
count). -/
def materialize (venv : Nat → Nat → Nat → Value) (t : LogicalTile)
    (m : List (Nat × Nat)) : (Nat → Nat → Value) × Nat :=
  (applyWrites
      (materializeWrites venv t m (GenerateTileToColMap t (m.map Prod.fst))),
    (visibleRows t).length)

/-! ## Helper lemmas for the materialization proof -/

theorem applyWrites_foldl :
    ∀ (ws : List ((Nat × Nat) × Value)) (D : Nat → Nat → Value)
      (c i : Nat) (v : Value),
      (((c, i), v) ∈ ws ∨ D c i = v) →
      (∀ w ∈ ws, w.1 = (c, i) → w.2 = v) →
      ws.foldl
        (fun D w => fun c' i' =>
          if c' = w.1.1 ∧ i' = w.1.2 then w.2 else D c' i') D c i = v := by
  intro ws
  induction ws with
  | nil =>
    intro D c i v hmem huniq
    rcases hmem with hmem | hD
    · exact absurd hmem (by simp)
    · exact hD
  | cons w ws ih =>
    intro D c i v hmem huniq
    simp only [List.foldl_cons]
    by_cases hw : w.1 = (c, i)
    · have hv : w.2 = v := huniq w (List.mem_cons_self _ _) hw
      apply ih
      · refine Or.inr ?_
        have : c = w.1.1 ∧ i = w.1.2 := by
          rw [hw]
          exact ⟨rfl, rfl⟩
        rw [if_pos this]
        exact hv
      · intro w' hw' h'
        exact huniq w' (List.mem_cons_of_mem _ hw') h'
    · apply ih
      · rcases hmem with hmem | hD
        · rcases List.mem_cons.mp hmem with hmem | hmem
          · exact absurd (congrArg Prod.fst hmem).symm hw
          · exact Or.inl hmem
        · refine Or.inr ?_
          rw [if_neg ?_, hD]
          intro ⟨h1, h2⟩
          exact hw (by rw [h1, h2])
      · intro w' hw' h'
        exact huniq w' (List.mem_cons_of_mem _ hw') h'

theorem lookup_eq_some_of_nodup :
    ∀ {m : List (Nat × Nat)} {oc nc : Nat},
      (m.map Prod.fst).Nodup → (oc, nc) ∈ m → m.lookup oc = some nc := by
  intro m
  induction m with
  | nil =>
    intro oc nc _ hmem
    exact absurd hmem (by simp)
  | cons p m ih =>
    intro oc nc hnd hmem
    obtain ⟨a, b⟩ := p
    simp only [List.map_cons, List.nodup_cons] at hnd
    rcases List.mem_cons.mp hmem with hmem1 | hmem2
    · injection hmem1 with h1 h2
      subst h1; subst h2
      simp [List.lookup]
    · have hne : oc ≠ a := by
        intro hc
        subst hc
        exact hnd.1 (List.mem_map.mpr ⟨(oc, nc), hmem2, rfl⟩)
      have hbeq : (oc == a) = false := by simpa using hne
      simp only [List.lookup, hbeq]
      exact ih hnd.2 hmem2

theorem fst_eq_of_mem_of_nodup_snd :
    ∀ {m : List (Nat × Nat)} {a b c : Nat},
      (m.map Prod.snd).Nodup → (a, c) ∈ m → (b, c) ∈ m → a = b := by
  intro m
  induction m with
  | nil =>
    intro a b c _ hmem
    exact absurd hmem (by simp)
  | cons p m ih =>
    intro a b c hnd hma hmb
    obtain ⟨x, y⟩ := p
    simp only [List.map_cons, List.nodup_cons] at hnd
    rcases List.mem_cons.mp hma with hma1 | hma2 <;>
      rcases List.mem_cons.mp hmb with hmb1 | hmb2
    · injection hma1 with h1 h2
      injection hmb1 with h3 h4
      rw [h1, h3]
    · injection hma1 with h1 h2
      subst h2
      exact absurd (List.mem_map.mpr ⟨(b, c), hmb2, rfl⟩) hnd.1
    · injection hmb1 with h1 h2
      subst h2
      exact absurd (List.mem_map.mpr ⟨(a, c), hma2, rfl⟩) hnd.1
    · exact ih hnd.2 hma2 hmb2

theorem mem_group_iff {t : LogicalTile} {olds : List Nat}
    {g : Nat × List Nat} :
    g ∈ GenerateTileToColMap t olds ↔
      g.1 ∈ (olds.map (baseOf t)).dedup ∧
        g.2 = olds.filter (fun c => baseOf t c == g.1) := by
  unfold GenerateTileToColMap
  rw [List.mem_map]
  constructor
  · rintro ⟨bt, hbt, rfl⟩
    exact ⟨hbt, rfl⟩
  · rintro ⟨h1, h2⟩
    exact ⟨g.1, h1, by rw [← h2]⟩

theorem exists_group {t : LogicalTile} {olds : List Nat} {oc : Nat}
    (h : oc ∈ olds) :
    ∃ g ∈ GenerateTileToColMap t olds, oc ∈ g.2 := by
  refine ⟨(baseOf t oc, olds.filter (fun c => baseOf t c == baseOf t oc)),
    ?_, ?_⟩
  · rw [mem_group_iff]
    exact ⟨List.mem_dedup.mpr (List.mem_map.mpr ⟨oc, h, rfl⟩), rfl⟩
  · simp only [List.mem_filter]
    exact ⟨h, by simp⟩

theorem mem_of_mem_group {t : LogicalTile} {olds : List Nat}
    {g : Nat × List Nat} {oc : Nat}
    (hg : g ∈ GenerateTileToColMap t olds) (hoc : oc ∈ g.2) : oc ∈ olds := by
  rw [mem_group_iff] at hg
  rw [hg.2] at hoc
  exact (List.mem_filter.mp hoc).1

theorem mem_materializeWrites {venv : Nat → Nat → Nat → Value}
    {t : LogicalTile} {m : List (Nat × Nat)} {groups : List (Nat × List Nat)}
    {w : (Nat × Nat) × Value} :
    w ∈ materializeWrites venv t m groups ↔
      ∃ g ∈ groups, ∃ i < (visibleRows t).length, ∃ oc ∈ g.2,
        w = ((newColOf m oc, i),
          valAt venv t oc ((visibleRows t).getD i 0)) := by
  unfold materializeWrites
  simp only [List.mem_flatMap, List.mem_map, List.mem_range]
  constructor
  · rintro ⟨g, hg, i, hi, oc, hoc, rfl⟩
    exact ⟨g, hg, i, hi, oc, hoc, rfl⟩
  · rintro ⟨g, hg, i, hi, oc, hoc, rfl⟩
    exact ⟨g, hg, i, hi, oc, hoc, rfl⟩

/-! ## Concrete fixtures used by the witnesses -/

/-- A physical-tile value environment whose value at `(tile, row, col)`
encodes its coordinates. -/
def venv0 : Nat → Nat → Nat → Value :=
  fun tile row col => Value.intVal (tile * 100 + row * 10 + col)

/-- A physical-tile tuple environment encoding `(tile, row)`. -/
def tenv0 : Nat → Nat → Nat := fun tile row => tile * 100 + row

def ops0 : List BuildOp :=
  [BuildOp.addPL [2, 0, 1], BuildOp.addCol 7 true 1 0,
    BuildOp.addCol 7 false 0 0, BuildOp.addPL [1, 1, 0],
    BuildOp.addCol 9 false 2 1]

def tile0 : LogicalTile :=
  { schema :=
      [{ base_tile := 7, origin_column_id := 1, position_list_idx := 0 },
        { base_tile := 7, origin_column_id := 0, position_list_idx := 0 },
        { base_tile := 9, origin_column_id := 2, position_list_idx := 1 }],
    position_lists := [[2, 0, 1], [1, 1, 0]],
    valid_rows := [true, true, true],
    num_tuples := 3,
    owned_base_tiles := [7] }

example : build ops0 = some tile0 := by decide

/-- A tile with its middle row invalidated. -/
def tile1 : LogicalTile :=
  { schema :=
      [{ base_tile := 7, origin_column_id := 1, position_list_idx := 0 }],
    position_lists := [[2, 0, 1]],
    valid_rows := [true, false, true],
    num_tuples := 3,
    owned_base_tiles := [] }

/-- A tile with every row invalidated. -/
def tileNone : LogicalTile :=
  { schema :=
      [{ base_tile := 7, origin_column_id := 1, position_list_idx := 0 }],
    position_lists := [[2, 0, 1]],
    valid_rows := [false, false, false],
    num_tuples := 3,
    owned_base_tiles := [] }

def ops5 : List BuildOp :=
  [BuildOp.addPL [0, 1], BuildOp.addCol 7 true 0 0,
    BuildOp.addCol 7 true 1 0, BuildOp.addCol 8 false 0 0]

def tile5 : LogicalTile :=
  { schema :=
      [{ base_tile := 7, origin_column_id := 0, position_list_idx := 0 },
        { base_tile := 7, origin_column_id := 1, position_list_idx := 0 },
        { base_tile := 8, origin_column_id := 0, position_list_idx := 0 }],
    position_lists := [[0, 1]],
    valid_rows := [true, true],
    num_tuples := 2,
    owned_base_tiles := [7] }

example : build ops5 = some tile5 := by decide

/-- The end-to-end example of §8: columns `[A, B]` over one physical tile,
position list `[2, 0, 1]`. -/
def tile6 : LogicalTile :=
  { schema :=
      [{ base_tile := 7, origin_column_id := 0, position_list_idx := 0 },
        { base_tile := 7, origin_column_id := 1, position_list_idx := 0 }],
    position_lists := [[2, 0, 1]],
    valid_rows := [true, true, true],
    num_tuples := 3,
    owned_base_tiles := [] }

/-- Result of the first `AddPositionList [4, 4]` on a fresh tile. -/
def tile8 : LogicalTile :=
  { schema := [], position_lists := [[4, 4]], valid_rows := [true, true],
    num_tuples := 2, owned_base_tiles := [] }

example : LogicalTile.empty.AddPositionList [4, 4] = some (tile8, 0) := by
  decide

/-! ## The claims -/

/-- **C1**: for every freshly built logical tile (assembled by a build-phase
trace, no row invalidated) and all in-range `c < NumCols()` and
`r < NumTuples()`, `GetValue(c, r)` equals the backing physical tile's value
at column `schema[c].origin_column_id` and physical row
`position_lists[schema[c].position_list_idx][r]`. -/
theorem C1_getValue_fresh_delegates (venv : Nat → Nat → Nat → Value)
    {ops : List BuildOp} {t : LogicalTile} (h : build ops = some t)
    (c r : Nat) (hc : c < t.NumCols) (hr : r < t.NumTuples) :
    t.GetValue venv c r =
      some (venv (t.schema.getD c default).base_tile
        ((t.position_lists.getD
            (t.schema.getD c default).position_list_idx []).getD r 0)
        (t.schema.getD c default).origin_column_id) := by
  have hi := buildInv_build h
  have hrl : r < t.valid_rows.length := by
    rw [hi.len_eq]
    exact hr
  have hval : t.valid_rows.getD r false = true := by
    rw [List.getD_eq_getElem _ _ hrl]
    exact hi.fresh _ (List.getElem_mem hrl)
  unfold LogicalTile.GetValue
  rw [if_pos ⟨hc, hrl⟩, if_neg (by rw [hval]; simp)]

theorem C1_witness :
    build ops0 = some tile0 ∧
    tile0.GetValue venv0 0 0 = some (Value.intVal 721) := by
  refine ⟨by decide, ?_⟩
  have h := C1_getValue_fresh_delegates venv0
    (show build ops0 = some tile0 by decide) 0 0 (by decide) (by decide)
  exact h.trans (by decide)

/-- **C2**: iterating a logical tile from begin to end yields exactly the row
indices whose validity bit is set, in strictly ascending order, each exactly
once; an all-valid tile of `N` rows yields `0..N-1`. -/
theorem C2_iteration_yields_valid_rows (t : LogicalTile) :
    t.iterList.Pairwise (· < ·) ∧
    t.iterList.Nodup ∧
    (∀ r, r ∈ t.iterList ↔
        r < t.valid_rows.length ∧ t.valid_rows.getD r false = true) ∧
    ((∀ b ∈ t.valid_rows, b = true) →
        t.iterList = List.range t.valid_rows.length) ∧
    (t.valid_rows.length = t.NumTuples → (∀ b ∈ t.valid_rows, b = true) →
        t.iterList = List.range t.NumTuples) := by
  rw [iterList_eq]
  have hall : (∀ b ∈ t.valid_rows, b = true) →
      validIndices t.valid_rows = List.range t.valid_rows.length := by
    intro hv
    unfold validIndices
    apply List.filter_eq_self.mpr
    intro a ha
    rw [List.mem_range] at ha
    rw [List.getD_eq_getElem _ _ ha]
    exact hv _ (List.getElem_mem ha)
  refine ⟨pairwise_validIndices _, ?_, ?_, hall, ?_⟩
  · exact (pairwise_validIndices _).imp (fun hlt => Nat.ne_of_lt hlt)
  · intro r
    exact mem_validIndices
  · intro hlen hv
    rw [hall hv, hlen]

theorem C2_witness : tile0.iterList = [0, 1, 2] :=
  ((C2_iteration_yields_valid_rows tile0).2.2.2.2 (by decide)
    (by decide)).trans (by decide)

/-- **C3**: for a built logical tile, `NumTuples()` equals the length of the
first position list passed to `AddPositionList`; a later `AddPositionList`
whose list length differs is rejected (and a successful call appends the list
verbatim — never truncated or padded). -/
theorem C3_first_list_fixes_numTuples {ops : List BuildOp} {t : LogicalTile}
    {l : List Nat} (h : build ops = some t) (hf : firstPL ops = some l) :
    t.NumTuples = l.length ∧
    ∀ l' : List Nat,
      (t.AddPositionList l' = none ↔ l'.length ≠ l.length) ∧
      (∀ t' i, t.AddPositionList l' = some (t', i) →
        t'.position_lists = t.position_lists ++ [l'] ∧
        i = t.position_lists.length) := by
  have hi := buildInv_build h
  have hhead : t.position_lists.head? = some l :=
    buildFrom_firstPL h buildInv_empty rfl hf
  obtain ⟨rest, hcons⟩ := List.head?_eq_some_iff.mp hhead
  have hmeml : l ∈ t.position_lists := by
    rw [hcons]
    exact List.mem_cons_self _ _
  have hnum : t.NumTuples = l.length := by
    unfold LogicalTile.NumTuples
    exact (hi.pl_len l hmeml).symm
  refine ⟨hnum, ?_⟩
  intro l'
  have hcond_iff : (t.position_lists.length = 0 ∨
      (t.position_lists.getD 0 []).length = l'.length) ↔
      l'.length = l.length := by
    rw [hcons]
    simp only [List.length_cons, List.getD_cons_zero]
    constructor
    · rintro (hx | hx)
      · omega
      · exact hx.symm
    · intro hx
      exact Or.inr hx.symm
  constructor
  · unfold LogicalTile.AddPositionList
    constructor
    · intro hnone hceq
      rw [if_pos (hcond_iff.mpr hceq)] at hnone
      exact absurd hnone (by simp)
    · intro hne
      rw [if_neg (fun hcnd => hne (hcond_iff.mp hcnd))]
  · intro t' i hsome
    obtain ⟨hidx, hpl, -, -, -⟩ := addPositionList_eq_some hi hsome
    exact ⟨hpl, hidx⟩

theorem C3_witness :
    tile0.NumTuples = 3 ∧ tile0.AddPositionList [5, 6] = none := by
  have h := C3_first_list_fixes_numTuples
    (show build ops0 = some tile0 by decide)
    (show firstPL ops0 = some [2, 0, 1] by decide)
  exact ⟨h.1, (h.2 [5, 6]).1.mpr (by decide)⟩

/-- **C4**: on an invalidated row, `GetValue` returns the invalid-value
sentinel and `GetTuple` returns the null tuple, for every in-range column id,
whatever the physical-tile environments contain (no delegation) and whatever
the schema's entries hold. -/
theorem C4_invalidated_row_sentinel (t : LogicalTile) (c r : Nat)
    (hc : c < t.NumCols) (hr : r < t.valid_rows.length)
    (hinv : t.valid_rows.getD r false = false) :
    (∀ venv, t.GetValue venv c r = some Value.invalid) ∧
    (∀ tenv, t.GetTuple tenv c r = some none) := by
  constructor
  · intro venv
    unfold LogicalTile.GetValue
    rw [if_pos ⟨hc, hr⟩, if_pos hinv]
  · intro tenv
    unfold LogicalTile.GetTuple
    rw [if_pos ⟨hc, hr⟩, if_pos hinv]

theorem C4_witness :
    tile1.GetValue venv0 0 1 = some Value.invalid ∧
    tile1.GetTuple tenv0 0 1 = some none := by
  have h := C4_invalidated_row_sentinel tile1 0 1 (by decide) (by decide)
    (by decide)
  exact ⟨h.1 venv0, h.2 tenv0⟩

/-- **C5**: destroying a built logical tile releases exactly the physical
tiles that were ever passed to `AddColumn` with `own_base_tile` set, each
exactly once (the released list is duplicate-free), and no tile passed only
without ownership. -/
theorem C5_destructor_releases_owned_once {ops : List BuildOp}
    {t : LogicalTile} (h : build ops = some t) :
    t.releasedTiles.Nodup ∧
    ∀ b : Nat, b ∈ t.releasedTiles ↔
      ∃ oc p, BuildOp.addCol b true oc p ∈ ops := by
  have hi := buildInv_build h
  unfold LogicalTile.releasedTiles
  refine ⟨hi.owned_nodup, ?_⟩
  intro b
  rw [buildFrom_owned h buildInv_empty b]
  simp [LogicalTile.empty]

theorem C5_witness :
    tile5.releasedTiles = [7] ∧
    (7 ∈ tile5.releasedTiles ↔
      ∃ oc p, BuildOp.addCol 7 true oc p ∈ ops5) := by
  have h := C5_destructor_releases_owned_once
    (show build ops5 = some tile5 by decide)
  exact ⟨by decide, h.2 7⟩

/-- **C7**: a sort-stage configuration whose sort-key sequence and
descending-flag sequence have different lengths is rejected by the stage's
initialization with the typed mismatch error, and the stage's run protocol
then fails before touching any input row (its result does not depend on the
rows or on the sort algorithm). -/
theorem C7_sort_config_mismatch_rejected (sk : List Nat) (df : List Bool)
    (ocs : List Nat) (be : Nat)
    (process : List (List Value) → List (List Value))
    (rows : List (List Value)) (hne : sk.length ≠ df.length) :
    sortStageInit (OrderByNode.make sk df ocs be) =
      Except.error ConfigError.schemaMismatch ∧
    sortStageRun (OrderByNode.make sk df ocs be) process rows =
      Except.error ConfigError.schemaMismatch := by
  have h1 : sortStageInit (OrderByNode.make sk df ocs be) =
      Except.error ConfigError.schemaMismatch := by
    unfold sortStageInit OrderByNode.GetSortKeys OrderByNode.GetDescendFlags
      OrderByNode.make
    rw [if_neg hne]
  refine ⟨h1, ?_⟩
  unfold sortStageRun
  rw [h1]

theorem C7_witness :
    sortStageInit (OrderByNode.make [0] [true, false] [0] 0) =
      Except.error ConfigError.schemaMismatch ∧
    sortStageRun (OrderByNode.make [0] [true, false] [0] 0) id [] =
      Except.error ConfigError.schemaMismatch :=
  C7_sort_config_mismatch_rejected [0] [true, false] [0] 0 id []
    (by decide)

/-- **C8**: every build-phase-reachable logical tile satisfies
`valid_rows.length = num_tuples`, and the first `AddPositionList` call
(position lists still empty) initializes the validity bitmap to all-true. -/
theorem C8_valid_rows_length_invariant {ops : List BuildOp}
    {t : LogicalTile} (h : build ops = some t) :
    t.valid_rows.length = t.NumTuples ∧
    ∀ (l : List Nat) (t' : LogicalTile) (i : Nat),
      t.position_lists = [] → t.AddPositionList l = some (t', i) →
      t'.valid_rows = List.replicate l.length true ∧
      ∀ b ∈ t'.valid_rows, b = true := by
  have hi := buildInv_build h
  refine ⟨hi.len_eq, ?_⟩
  intro l t' i hnil hadd
  obtain ⟨-, -, -, -, hcase⟩ := addPositionList_eq_some hi hadd
  rcases hcase with ⟨-, -, hvr⟩ | ⟨hne, -⟩
  · refine ⟨hvr, ?_⟩
    intro b hb
    rw [hvr] at hb
    exact List.eq_of_mem_replicate hb
  · exact absurd hnil hne

theorem C8_witness :
    LogicalTile.empty.valid_rows.length = LogicalTile.empty.NumTuples ∧
    tile8.valid_rows = List.replicate 2 true := by
  have h := C8_valid_rows_length_invariant
    (show build [] = some LogicalTile.empty by decide)
  exact ⟨h.1, (h.2 [4, 4] tile8 0 (by decide) (by decide)).1⟩

/-- **C9**: when no row of a tile is valid (including a zero-row tile),
`begin()` equals `end()`: the begin iterator already carries the past-the-last
sentinel position and the same owning tile, the two compare equal under
`operator==`, and the traversal visits no row. -/
theorem C9_begin_eq_end_when_no_valid_rows (t : LogicalTile) (tid : Nat)
    (h : ∀ b ∈ t.valid_rows, b = false) :
    t.iterBegin tid = t.iterEnd tid ∧
    iterEq (t.iterBegin tid) (t.iterEnd tid) = true ∧
    (t.iterBegin tid).pos = none ∧
    t.iterList = [] := by
  have hscan : scanValid t.valid_rows 0 = none := by
    cases hs : scanValid t.valid_rows 0 with
    | none => rfl
    | some j =>
      obtain ⟨-, hjlen, hjval, -⟩ := (scanValid_spec t.valid_rows 0).1 j hs
      have hfalse : t.valid_rows.getD j false = false := by
        rw [List.getD_eq_getElem _ _ hjlen]
        exact h _ (List.getElem_mem hjlen)
      rw [hfalse] at hjval
      exact absurd hjval (by simp)
  refine ⟨?_, ?_, ?_, ?_⟩
  · unfold LogicalTile.iterBegin LogicalTile.iterEnd
    rw [hscan]
  · unfold iterEq LogicalTile.iterBegin LogicalTile.iterEnd
    rw [hscan]
    simp
  · unfold LogicalTile.iterBegin
    rw [hscan]
  · unfold LogicalTile.iterList
    rw [hscan]
    cases t.valid_rows.length <;> rfl

theorem C9_witness :
    tileNone.iterBegin 3 = tileNone.iterEnd 3 ∧ tileNone.iterList = [] := by
  have h := C9_begin_eq_end_when_no_valid_rows tileNone 3 (by decide)
  exact ⟨h.1, h.2.2.2⟩

/-- **C10**: under the precondition that the position-list index refers to an
already-added list, `AddColumn` succeeds, appends exactly one schema
descriptor holding the given base tile, origin column and position-list
index (`NumCols` grows by one), and leaves `num_tuples`, the position lists
and the validity bitmap unchanged; with `own_base_tile` unset it also leaves
the owned-tile set unchanged. -/
theorem C10_addColumn_frame_effect (t : LogicalTile)
    (base : Nat) (own : Bool) (oc plIdx : Nat)
    (hp : plIdx < t.position_lists.length) :
    ∃ t', t.AddColumn base own oc plIdx = some t' ∧
      t'.schema = t.schema ++
        [{ base_tile := base, origin_column_id := oc,
           position_list_idx := plIdx }] ∧
      t'.NumCols = t.NumCols + 1 ∧
      t'.num_tuples = t.num_tuples ∧
      t'.position_lists = t.position_lists ∧
      t'.valid_rows = t.valid_rows ∧
      (own = false → t'.owned_base_tiles = t.owned_base_tiles) := by
  unfold LogicalTile.AddColumn
  rw [if_pos hp]
  refine ⟨_, rfl, rfl, ?_, rfl, rfl, rfl, ?_⟩
  · unfold LogicalTile.NumCols
    simp
  · intro hown
    rw [hown]
    simp

/-- Result of `tile0.AddColumn 9 false 5 0`. -/
def tile10 : LogicalTile :=
  { tile0 with
    schema := tile0.schema ++
      [{ base_tile := 9, origin_column_id := 5, position_list_idx := 0 }] }

theorem C10_witness :
    tile0.AddColumn 9 false 5 0 = some tile10 ∧
    tile10.NumCols = tile0.NumCols + 1 ∧
    tile10.valid_rows = tile0.valid_rows ∧
    tile10.owned_base_tiles = tile0.owned_base_tiles := by
  obtain ⟨t', h1, h2, h3, h4, h5, h6, h7⟩ :=
    C10_addColumn_frame_effect tile0 9 false 5 0 (by decide)
  have hd : tile0.AddColumn 9 false 5 0 = some tile10 := by decide
  have ht : t' = tile10 := by
    have hs := h1.symm.trans hd
    injection hs
  subst ht
  exact ⟨hd, h3, h6, h7 rfl⟩

/-- **C6**: for every input logical tile consumed by the materialization
execute phase, the emitted tile has exactly one output row per currently
visible input row (`.2`, the row count, equals the visible-row count), rows
appear in the input's visible-row iteration order (output row `i` is sourced
from the `i`-th visited row), and output column `nc` holds the values of the
logical column `oc` mapped to it by the old-to-new column mapping. -/
theorem C6_materialization_row_order_and_columns
    (venv : Nat → Nat → Nat → Value) (t : LogicalTile)
    (m : List (Nat × Nat)) (oc nc i : Nat)
    (hm1 : (m.map Prod.fst).Nodup) (hm2 : (m.map Prod.snd).Nodup)
    (hmem : (oc, nc) ∈ m) (hi : i < (visibleRows t).length)
    (hoc : oc < t.NumCols) :
    (materialize venv t m).2 = (visibleRows t).length ∧
    ∃ v, t.GetValue venv oc ((visibleRows t).getD i 0) = some v ∧
      (materialize venv t m).1 nc i = v := by
  have hrmem : (visibleRows t).getD i 0 ∈ visibleRows t := by
    rw [List.getD_eq_getElem _ _ hi]
    exact List.getElem_mem hi
  have hrmem' : (visibleRows t).getD i 0 ∈ validIndices t.valid_rows := by
    rw [← iterList_eq]
    exact hrmem
  obtain ⟨hrlen, hrval⟩ := mem_validIndices.mp hrmem'
  have hget : t.GetValue venv oc ((visibleRows t).getD i 0) =
      some (valAt venv t oc ((visibleRows t).getD i 0)) := by
    unfold valAt LogicalTile.GetValue
    rw [if_pos ⟨hoc, hrlen⟩, if_neg (by rw [hrval]; simp)]
    rfl
  refine ⟨rfl, valAt venv t oc ((visibleRows t).getD i 0), hget, ?_⟩
  show applyWrites
      (materializeWrites venv t m
        (GenerateTileToColMap t (m.map Prod.fst))) nc i =
    valAt venv t oc ((visibleRows t).getD i 0)
  unfold applyWrites
  apply applyWrites_foldl
  · refine Or.inl ?_
    have hlook : m.lookup oc = some nc := lookup_eq_some_of_nodup hm1 hmem
    have hnc : newColOf m oc = nc := by
      unfold newColOf
      rw [hlook]
      rfl
    have hocm : oc ∈ m.map Prod.fst := List.mem_map.mpr ⟨(oc, nc), hmem, rfl⟩
    obtain ⟨g, hg, hocg⟩ := exists_group (t := t) hocm
    apply mem_materializeWrites.mpr
    refine ⟨g, hg, i, hi, oc, hocg, ?_⟩
    rw [hnc]
  · intro w hw hw1
    obtain ⟨g, hg, i', hi', oc', hoc', rfl⟩ := mem_materializeWrites.mp hw
    simp only [Prod.mk.injEq] at hw1
    obtain ⟨hnceq, hieq⟩ := hw1
    subst hieq
    have hoc'm : oc' ∈ m.map Prod.fst := mem_of_mem_group hg hoc'
    obtain ⟨p', hp', hfst⟩ := List.mem_map.mp hoc'm
    obtain ⟨oc'', nc'⟩ := p'
    dsimp only at hfst
    subst hfst
    have hlook' : m.lookup oc'' = some nc' := lookup_eq_some_of_nodup hm1 hp'
    have hnc' : newColOf m oc'' = nc' := by
      unfold newColOf
      rw [hlook']
      rfl
    have hncnc : nc' = nc := by
      rw [← hnc']
      exact hnceq
    subst hncnc
    have hoceq : oc'' = oc := fst_eq_of_mem_of_nodup_snd hm2 hp' hmem
    subst hoceq
    rfl

theorem C6_witness :
    (materialize venv0 tile6 [(0, 0)]).2 = 3 ∧
    (materialize venv0 tile6 [(0, 0)]).1 0 0 = Value.intVal 720 := by
  obtain ⟨h1, v, hv1, hv2⟩ := C6_materialization_row_order_and_columns
    venv0 tile6 [(0, 0)] 0 0 0 (by decide) (by decide) (by decide)
    (by decide) (by decide)
  refine ⟨h1.trans (by decide), ?_⟩
  have hv : some v = some (Value.intVal 720) := hv1.symm.trans (by decide)
  injection hv with hv
  rw [hv2, hv]
